import Mathlib

/-!
Verification of the Smith-Waterman alignment engine
(`src/cpuSmithWaterman.cpp` and `src/smithWaterman.cu`).

The score/direction matrices are embedded as functions `Nat → Nat → Int × Nat`
(score, direction code: 0 = NONE, 1 = DIAG, 2 = UP, 3 = LEFT), written cell by
cell exactly in the order the two programs write them: row-major for the CPU
loop, anti-diagonal by anti-diagonal for the GPU kernel driver.  The traceback
while-loop is embedded with an explicit fuel argument; the pipeline calls it
with fuel `max_i + max_j`, which is an upper bound on the number of loop
iterations because every iteration decreases `ti + tj` by at least one and the
loop requires `ti > 0` and `tj > 0`.
-/

set_option maxRecDepth 100000

namespace SW

/-- A score/direction matrix, indexed by `(i, j)` with `0 ≤ i ≤ len1`,
`0 ≤ j ≤ len2`.  The C++ programs store it as a flat vector of size
`(len1+1)*(len2+1)`; cells keep value `(0, 0)` until written. -/
abbrev Mat := Nat → Nat → Int × Nat

/-- The all-zero initial matrix (`std::vector` value-initialisation in
`cpuSmithWaterman.cpp` line 86, `cudaMemset` in `smithWaterman.cu` 166). -/
def mat0 : Mat := fun _ _ => (0, 0)

/-- Functional update of one cell of the matrix. -/
def writeCell (m : Mat) (i j : Nat) (v : Int × Nat) : Mat :=
  fun a b => if a = i ∧ b = j then v else m a b

/-- The max/direction selection chain of the DP update
(`cpuSmithWaterman.cpp` lines 99-112, identical in `sw_kernel`,
`smithWaterman.cu` lines 23-36): start from `(0, NONE)` and let each of
diagonal, up, left take over only on a strict improvement. -/
def chooseCell (diagScore up left : Int) : Int × Nat :=
  let p1 : Int × Nat := if diagScore > 0 then (diagScore, 1) else (0, 0)
  let p2 : Int × Nat := if up > p1.1 then (up, 2) else p1
  if left > p2.1 then (left, 3) else p2

/-- Substitution score: `matchScore` on equal residues, else `mismatchScore`
(`cpuSmithWaterman.cpp` line 96). -/
def subScore (ms mm : Int) (a b : Char) : Int := if a = b then ms else mm

/-- The value written into cell `(i, j)` given the current matrix contents
(`cpuSmithWaterman.cpp` lines 92-112; `sw_kernel` lines 19-36).  The C++
reads `seq1[i-1]` and `seq2[j-1]`; out-of-range indices never occur for the
cells the programs actually write. -/
def cellAt (s1 s2 : List Char) (ms mm gs : Int) (m : Mat) (i j : Nat) : Int × Nat :=
  let up := (m (i-1) j).1 + gs
  let left := (m i (j-1)).1 + gs
  let diagScore := (m (i-1) (j-1)).1 + subScore ms mm (s1.getD (i-1) ' ') (s2.getD (j-1) ' ')
  chooseCell diagScore up left

/-- One DP write: compute and store cell `c` (`cpuSmithWaterman.cpp` 115-116). -/
def fillStep (s1 s2 : List Char) (ms mm gs : Int) (m : Mat) (c : Nat × Nat) : Mat :=
  writeCell m c.1 c.2 (cellAt s1 s2 ms mm gs m c.1 c.2)

/-- Fill the matrix by writing the listed cells in order. -/
def fillList (s1 s2 : List Char) (ms mm gs : Int) (L : List (Nat × Nat)) (m : Mat) : Mat :=
  L.foldl (fillStep s1 s2 ms mm gs) m

/-- The cell order of the sequential fill: `for i in 1..len1, for j in 1..len2`
(`cpuSmithWaterman.cpp` lines 90-91). -/
def rowMajorOrder (len1 len2 : Nat) : List (Nat × Nat) :=
  (List.range len1).flatMap (fun i => (List.range len2).map (fun j => (i+1, j+1)))

/-- The cells of anti-diagonal `d`, in increasing `i`, exactly as the host
loop derives them (`smithWaterman.cu` lines 179-185): `start_i` is
`diag - (len2+1) + 1` when `diag > len2+1`, else `1`; `end_i` is
`min (diag-1) len1`; the diagonal is skipped when `start_i > len1` or
`start_i > end_i`. -/
def diagCells (len1 len2 d : Nat) : List (Nat × Nat) :=
  let si := if d > len2 + 1 then d - (len2+1) + 1 else 1
  let ei := min (d - 1) len1
  if si > len1 ∨ si > ei then []
  else (List.range' si (ei + 1 - si)).map (fun i => (i, d - i))

/-- The cell order of the anti-diagonal fill: diagonals `d = 2 .. len1+len2`
in increasing order (`smithWaterman.cu` lines 176-188), the cells of each
diagonal written as one batch (one kernel launch, then a device barrier). -/
def diagOrder (len1 len2 : Nat) : List (Nat × Nat) :=
  (List.range' 2 (len1 + len2 - 1)).flatMap (diagCells len1 len2)

/-- The matrix produced by the sequential (CPU) fill. -/
def cpuMatrix (s1 s2 : List Char) (ms mm gs : Int) : Mat :=
  fillList s1 s2 ms mm gs (rowMajorOrder s1.length s2.length) mat0

/-- The matrix produced by the anti-diagonal (GPU) fill. -/
def gpuMatrix (s1 s2 : List Char) (ms mm gs : Int) : Mat :=
  fillList s1 s2 ms mm gs (diagOrder s1.length s2.length) mat0

/-- The mathematical DP recurrence both fills implement: boundary cells are
`(0, NONE)`, and every interior cell is the `chooseCell` of its three
predecessors. -/
def swSpec (s1 s2 : List Char) (ms mm gs : Int) : Nat → Nat → Int × Nat
  | 0, _ => (0, 0)
  | _+1, 0 => (0, 0)
  | i+1, j+1 =>
    let up := (swSpec s1 s2 ms mm gs i (j+1)).1 + gs
    let left := (swSpec s1 s2 ms mm gs (i+1) j).1 + gs
    let diagScore := (swSpec s1 s2 ms mm gs i j).1 + subScore ms mm (s1.getD i ' ') (s2.getD j ' ')
    chooseCell diagScore up left
termination_by i j => (i, j)

/-- Best-cell scan (`cpuSmithWaterman.cpp` lines 120-132, identical in
`smithWaterman.cu` 196-208): row-major scan keeping the running maximum,
updated only on a strict improvement, starting from `(0, (0, 0))`. -/
def findMax (m : Mat) (len1 len2 : Nat) : Int × Nat × Nat :=
  (rowMajorOrder len1 len2).foldl
    (fun acc c => if (m c.1 c.2).1 > acc.1 then ((m c.1 c.2).1, c.1, c.2) else acc)
    (0, 0, 0)

/-- Traceback while-loop (`cpuSmithWaterman.cpp` lines 134-165, identical in
`smithWaterman.cu` 210-241), with explicit fuel.  Returns the two aligned
strings built backwards (`push_back` order) and the list of cells visited
(each loop-head position, ending with the cell at which the walk stops). -/
def tracebackAux (s1 s2 : List Char) (m : Mat) :
    Nat → Nat → Nat → List Char → List Char → List Char × List Char × List (Nat × Nat)
  | 0, ti, tj, a1, a2 => (a1, a2, [(ti, tj)])
  | fuel+1, ti, tj, a1, a2 =>
    if ti = 0 ∨ tj = 0 then (a1, a2, [(ti, tj)])
    else
      let d := (m ti tj).2
      if d = 0 then (a1, a2, [(ti, tj)])
      else if d = 1 then
        let a1x := a1 ++ [s1.getD (ti-1) ' ']
        let a2x := a2 ++ [s2.getD (tj-1) ' ']
        if (m (ti-1) (tj-1)).1 = 0 then (a1x, a2x, [(ti, tj), (ti-1, tj-1)])
        else
          let r := tracebackAux s1 s2 m fuel (ti-1) (tj-1) a1x a2x
          (r.1, r.2.1, (ti, tj) :: r.2.2)
      else if d = 2 then
        let a1x := a1 ++ [s1.getD (ti-1) ' ']
        let a2x := a2 ++ ['-']
        if (m (ti-1) tj).1 = 0 then (a1x, a2x, [(ti, tj), (ti-1, tj)])
        else
          let r := tracebackAux s1 s2 m fuel (ti-1) tj a1x a2x
          (r.1, r.2.1, (ti, tj) :: r.2.2)
      else if d = 3 then
        let a1x := a1 ++ ['-']
        let a2x := a2 ++ [s2.getD (tj-1) ' ']
        if (m ti (tj-1)).1 = 0 then (a1x, a2x, [(ti, tj), (ti, tj-1)])
        else
          let r := tracebackAux s1 s2 m fuel ti (tj-1) a1x a2x
          (r.1, r.2.1, (ti, tj) :: r.2.2)
      else (a1, a2, [(ti, tj)])

/-- Replace the traceback gap marker by the MSF gap symbol
(`cpuSmithWaterman.cpp` lines 172-177). -/
def msfGaps (l : List Char) : List Char :=
  l.map (fun c => if c = '-' then '.' else c)

/-- The full CPU alignment engine (`smithWaterman`, `cpuSmithWaterman.cpp`
lines 79-178): fill row-major, locate the best cell, trace back, reverse,
replace gaps.  Returns `(align1, align2, maxScore)`. -/
def smithWaterman (s1 s2 : List Char) (ms mm gs : Int) : List Char × List Char × Int :=
  let m := cpuMatrix s1 s2 ms mm gs
  let best := findMax m s1.length s2.length
  let r := tracebackAux s1 s2 m (best.2.1 + best.2.2) best.2.1 best.2.2 [] []
  (msfGaps r.1.reverse, msfGaps r.2.1.reverse, best.1)

/-- The same pipeline with the anti-diagonal fill (`smithWaterman.cu` main,
lines 174-252). -/
def smithWatermanDiag (s1 s2 : List Char) (ms mm gs : Int) : List Char × List Char × Int :=
  let m := gpuMatrix s1 s2 ms mm gs
  let best := findMax m s1.length s2.length
  let r := tracebackAux s1 s2 m (best.2.1 + best.2.2) best.2.1 best.2.2 [] []
  (msfGaps r.1.reverse, msfGaps r.2.1.reverse, best.1)

/-- The list of cells visited by the CPU traceback walk (loop-head positions,
ending with the cell at which the walk stops). -/
def swTracePath (s1 s2 : List Char) (ms mm gs : Int) : List (Nat × Nat) :=
  let m := cpuMatrix s1 s2 ms mm gs
  let best := findMax m s1.length s2.length
  (tracebackAux s1 s2 m (best.2.1 + best.2.2) best.2.1 best.2.2 [] []).2.2

/-- ASCII `toupper` on a character code, as applied by the C++
(`std::toupper` on an unsigned char holding ASCII). -/
def upCode (n : Nat) : Nat := if 97 ≤ n ∧ n ≤ 122 then n - 32 else n

/-- GCG checksum (`gcgChecksum`, `cpuSmithWaterman.cpp` lines 181-189):
`check += ((i % 57) + 1) * toupper(s[i])` over all positions, result taken
mod 10000. -/
def gcgChecksum (s : List Char) : Nat :=
  ((List.range s.length).foldl
    (fun acc i => acc + ((i % 57) + 1) * upCode (s.getD i ' ').toNat) 0) % 10000

/-- ASCII `toupper` as a character map. -/
def upChar (c : Char) : Char :=
  if 97 ≤ c.toNat ∧ c.toNat ≤ 122 then Char.ofNat (c.toNat - 32) else c

/-- Sequence-type scan (`determineSequenceType`, `cpuSmithWaterman.cpp` lines
192-205): nucleic-acid letter check over both aligned strings, gaps skipped. -/
def determineSequenceType (a1 a2 : List Char) : Char :=
  if (a1 ++ a2).all (fun c =>
      c = '.' ∨ (upChar c = 'A' ∨ upChar c = 'C' ∨ upChar c = 'G' ∨
                 upChar c = 'T' ∨ upChar c = 'U' ∨ upChar c = 'N'))
  then 'N' else 'P'

/-- The 12-character name field of a residue line, `printf` format `%-12s`
(`cpuSmithWaterman.cpp` lines 235 and 247): the name is left-justified, so
padding spaces follow the name; names of 12 or more characters are emitted
unpadded. -/
def padName (name : List Char) : List Char :=
  name ++ List.replicate (12 - name.length) ' '

/-- One run of residue columns `[start, fin)` of an aligned string, with a
single space after every 10th printed residue except at the end of the line
(`cpuSmithWaterman.cpp` lines 237-244). -/
def segLine (s : List Char) (start fin : Nat) : List Char :=
  (List.range' start (fin - start)).foldl
    (fun acc k =>
      let acc2 := acc ++ [s.getD k ' ']
      if (k - start + 1) % 10 = 0 ∧ k < fin - 1 then acc2 ++ [' '] else acc2)
    []

/-- The residue-block lines of the report, blocks of 50 columns, two lines
per block (`cpuSmithWaterman.cpp` lines 230-257). -/
def msfBody (name1 name2 a1 a2 : List Char) : List (List Char) :=
  let alignLen := a1.length
  (List.range ((alignLen + 49) / 50)).flatMap (fun b =>
    let start := b * 50
    let fin := if start + 50 < alignLen then start + 50 else alignLen
    [padName name1 ++ segLine a1 start fin, padName name2 ++ segLine a2 start fin])

/-- The data content of the serialized MSF report. -/
structure MSFReport where
  score : Int
  alignLen : Nat
  typeChar : Char
  globalCheck : Nat
  check1 : Nat
  check2 : Nat
  bodyLines : List (List Char)
  deriving DecidableEq

/-- The serializer (`printMSFAlignment`, `cpuSmithWaterman.cpp` lines
208-258), modelled as the record of every data item it prints. -/
def printMSFAlignment (name1 name2 a1 a2 : List Char) (maxScore : Int) : MSFReport :=
  { score := maxScore
    alignLen := a1.length
    check1 := gcgChecksum a1
    check2 := gcgChecksum a2
    globalCheck := (gcgChecksum a1 + gcgChecksum a2) % 10000
    typeChar := determineSequenceType a1 a2
    bodyLines := msfBody name1 name2 a1 a2 }

/-! ### Facts about the selection chain -/

/-- The DP update rule as the specification words it: `bestScore` is
`max(0, diag, up, left)`; the direction is the first candidate in the order
DIAG, UP, LEFT whose value equals `bestScore`, or NONE when `bestScore` is 0.
This definition follows the words of the spec, for comparison with
`chooseCell`, which is translated from the source. -/
def specUpdateRule (diagScore up left : Int) : Int × Nat :=
  let b := max 0 (max diagScore (max up left))
  (b, if b = 0 then 0 else if diagScore = b then 1 else if up = b then 2 else 3)

theorem chooseCell_eq_specUpdateRule (d u l : Int) :
    chooseCell d u l = specUpdateRule d u l := by
  obtain ⟨B, hB⟩ : ∃ B, B = max 0 (max d (max u l)) := ⟨_, rfl⟩
  have h0 : 0 ≤ B := hB ▸ le_max_left _ _
  have hd : d ≤ B := hB ▸ le_trans (le_max_left _ _) (le_max_right _ _)
  have hu : u ≤ B :=
    hB ▸ le_trans (le_trans (le_max_left _ _) (le_max_right _ _)) (le_max_right _ _)
  have hl : l ≤ B :=
    hB ▸ le_trans (le_trans (le_max_right _ _) (le_max_right _ _)) (le_max_right _ _)
  have hc : B = 0 ∨ B = d ∨ B = u ∨ B = l := by
    rcases max_choice 0 (max d (max u l)) with h | h
    · exact Or.inl (hB.trans h)
    · rcases max_choice d (max u l) with h2 | h2
      · exact Or.inr (Or.inl ((hB.trans h).trans h2))
      · rcases max_choice u l with h3 | h3
        · exact Or.inr (Or.inr (Or.inl (((hB.trans h).trans h2).trans h3)))
        · exact Or.inr (Or.inr (Or.inr (((hB.trans h).trans h2).trans h3)))
  simp only [chooseCell, specUpdateRule, ← hB]
  clear hB
  split_ifs <;> dsimp only at * <;>
    (try simp only [Prod.mk.injEq, and_true, true_and]) <;> omega

theorem chooseCell_nonneg (d u l : Int) : 0 ≤ (chooseCell d u l).1 := by
  simp only [chooseCell]
  split_ifs <;> simp <;> omega

theorem chooseCell_pos_of_dir (d u l : Int) (h : (chooseCell d u l).2 ≠ 0) :
    0 < (chooseCell d u l).1 := by
  simp only [chooseCell] at *
  split_ifs at * <;> simp_all <;> omega

theorem chooseCell_le (d u l c : Int) (h0 : 0 ≤ c) (hd : d ≤ c) (hu : u ≤ c)
    (hl : l ≤ c) : (chooseCell d u l).1 ≤ c := by
  simp only [chooseCell]
  split_ifs <;> simp <;> omega

theorem chooseCell_diag (d u l : Int) (h0 : 0 < d) (hu : u ≤ d) (hl : l ≤ d) :
    chooseCell d u l = (d, 1) := by
  simp only [chooseCell]
  split_ifs <;> first | rfl | omega

/-! ### The DP recurrence and the two fill schedules -/

theorem swSpec_boundary (s1 s2 : List Char) (ms mm gs : Int) (a b : Nat)
    (h : a = 0 ∨ b = 0) : swSpec s1 s2 ms mm gs a b = (0, 0) := by
  rcases h with h | h <;> subst h
  · simp [swSpec]
  · cases a <;> simp [swSpec]

theorem swSpec_succ (s1 s2 : List Char) (ms mm gs : Int) (i j : Nat) :
    swSpec s1 s2 ms mm gs (i+1) (j+1) =
      cellAt s1 s2 ms mm gs (swSpec s1 s2 ms mm gs) (i+1) (j+1) := by
  rw [swSpec, cellAt]
  simp

/-- A cell is interior when it is one the fill loops actually write:
`1 ≤ i ≤ len1`, `1 ≤ j ≤ len2`. -/
def interior (len1 len2 : Nat) (c : Nat × Nat) : Prop :=
  1 ≤ c.1 ∧ c.1 ≤ len1 ∧ 1 ≤ c.2 ∧ c.2 ≤ len2

instance (len1 len2 : Nat) (c : Nat × Nat) : Decidable (interior len1 len2 c) := by
  unfold interior; infer_instance

/-- The three cells read by the update of cell `c`. -/
def deps (c : Nat × Nat) : List (Nat × Nat) :=
  [(c.1 - 1, c.2 - 1), (c.1 - 1, c.2), (c.1, c.2 - 1)]

/-- A cell order is a valid schedule (relative to already-written cells `p`)
when it never rewrites a cell and every interior dependency of a cell has
been written before the cell itself. -/
def schedOK (len1 len2 : Nat) : List (Nat × Nat) → List (Nat × Nat) → Prop
  | _, [] => True
  | p, c :: L =>
      c ∉ p ∧ (∀ d ∈ deps c, interior len1 len2 d → d ∈ p) ∧
      schedOK len1 len2 (c :: p) L

theorem fill_go (s1 s2 : List Char) (ms mm gs : Int) (len1 len2 : Nat) :
    ∀ (L p : List (Nat × Nat)) (m : Mat),
      (∀ c ∈ p, interior len1 len2 c) →
      (∀ c ∈ L, interior len1 len2 c) →
      schedOK len1 len2 p L →
      (∀ a b, m a b = if (a, b) ∈ p then swSpec s1 s2 ms mm gs a b else (0, 0)) →
      (∀ a b, fillList s1 s2 ms mm gs L m a b =
        if (a, b) ∈ p ∨ (a, b) ∈ L then swSpec s1 s2 ms mm gs a b else (0, 0)) := by
  intro L
  induction L with
  | nil =>
    intro p m _ _ _ hm a b
    simpa [fillList] using hm a b
  | cons c L ih =>
    intro p m hp hL hsched hm a b
    obtain ⟨hcp, hdep, hrest⟩ := hsched
    have hcint : interior len1 len2 c := hL c (List.mem_cons_self c L)
    have hLint : ∀ x ∈ L, interior len1 len2 x := fun x hx => hL x (List.mem_cons_of_mem c hx)
    have hpint : ∀ x ∈ c :: p, interior len1 len2 x := by
      intro x hx
      rcases List.mem_cons.mp hx with h | h
      · exact h ▸ hcint
      · exact hp x h
    -- the value written into cell c is the spec value
    have hdepval : ∀ d ∈ deps c, m d.1 d.2 = swSpec s1 s2 ms mm gs d.1 d.2 := by
      intro d hd
      by_cases hdi : interior len1 len2 d
      · have : d ∈ p := hdep d hd hdi
        rw [hm d.1 d.2, if_pos (by simpa using this)]
      · have hz : d.1 = 0 ∨ d.2 = 0 := by
          obtain ⟨h1, h2, h3, h4⟩ := hcint
          simp only [deps, List.mem_cons, List.mem_singleton] at hd
          unfold interior at hdi
          rcases hd with rfl | rfl | rfl | h
          · simp only [] at hdi ⊢; omega
          · simp only [] at hdi ⊢; omega
          · simp only [] at hdi ⊢; omega
          · simp at h
        have hnp : d ∉ p := fun hmem => hdi (hp d hmem)
        rw [hm d.1 d.2, if_neg (by simpa using hnp), swSpec_boundary _ _ _ _ _ _ _ hz]
    have hwrite : cellAt s1 s2 ms mm gs m c.1 c.2 = swSpec s1 s2 ms mm gs c.1 c.2 := by
      obtain ⟨h1, h2, h3, h4⟩ := hcint
      obtain ⟨i, hci⟩ : ∃ i, c.1 = i + 1 := ⟨c.1 - 1, by omega⟩
      obtain ⟨j, hcj⟩ : ∃ j, c.2 = j + 1 := ⟨c.2 - 1, by omega⟩
      have e1 := hdepval (i, j) (by simp [deps, hci, hcj])
      have e2 := hdepval (i, j+1) (by simp [deps, hci, hcj])
      have e3 := hdepval (i+1, j) (by simp [deps, hci, hcj])
      rw [hci, hcj, swSpec_succ]
      unfold cellAt
      simp only [Nat.add_sub_cancel] at *
      rw [e1, e2, e3]
    have hm2 : ∀ a b, fillStep s1 s2 ms mm gs m c a b =
        if (a, b) ∈ c :: p then swSpec s1 s2 ms mm gs a b else (0, 0) := by
      intro a b
      unfold fillStep writeCell
      by_cases hab : a = c.1 ∧ b = c.2
      · obtain ⟨rfl, rfl⟩ := hab
        rw [if_pos ⟨rfl, rfl⟩, if_pos (by simp), hwrite]
      · rw [if_neg hab, hm a b]
        have : ((a, b) ∈ c :: p) ↔ ((a, b) ∈ p) := by
          simp only [List.mem_cons]
          constructor
          · rintro (h | h)
            · exact absurd h.symm (by rintro rfl; exact hab ⟨rfl, rfl⟩)
            · exact h
          · exact Or.inr
        rw [if_congr this rfl rfl]
    have := ih (c :: p) (fillStep s1 s2 ms mm gs m c) hpint hLint hrest hm2 a b
    have hiff : ((a, b) ∈ c :: p ∨ (a, b) ∈ L) ↔ ((a, b) ∈ p ∨ (a, b) ∈ c :: L) := by
      simp only [List.mem_cons]; tauto
    calc fillList s1 s2 ms mm gs (c :: L) m a b
        = fillList s1 s2 ms mm gs L (fillStep s1 s2 ms mm gs m c) a b := by
          simp [fillList]
      _ = _ := by rw [this, if_congr hiff rfl rfl]

/-- A cell order drawn from the interior is a valid schedule as soon as some
rank function increases strictly along it and strictly dominates the rank of
every interior dependency. -/
theorem schedOK_of_rank (len1 len2 : Nat) (r : Nat × Nat → Nat) :
    ∀ (L p : List (Nat × Nat)),
      List.Pairwise (fun a b => r a < r b) L →
      (∀ c ∈ L, c ∉ p) →
      (∀ c ∈ L, ∀ d ∈ deps c, interior len1 len2 d → (d ∈ p ∨ d ∈ L)) →
      (∀ c ∈ L, ∀ d ∈ deps c, interior len1 len2 d → d ∈ L → r d < r c) →
      schedOK len1 len2 p L := by
  intro L
  induction L with
  | nil => intro p _ _ _ _; trivial
  | cons c L ih =>
    intro p hpair hnp hcl hrk
    have hpairc : ∀ x ∈ L, r c < r x := (List.pairwise_cons.mp hpair).1
    have hpairL : List.Pairwise (fun a b => r a < r b) L := (List.pairwise_cons.mp hpair).2
    refine ⟨hnp c (List.mem_cons_self c L), ?_, ?_⟩
    · intro d hd hdi
      rcases hcl c (List.mem_cons_self c L) d hd hdi with h | h
      · exact h
      · rcases List.mem_cons.mp h with rfl | h2
        · exact absurd (hrk d (List.mem_cons_self d L) d hd hdi h) (lt_irrefl _)
        · exact absurd (hrk c (List.mem_cons_self c L) d hd hdi h)
            (not_lt.mpr (le_of_lt (hpairc d h2)))
    · refine ih (c :: p) hpairL ?_ ?_ ?_
      · intro x hx
        intro hmem
        rcases List.mem_cons.mp hmem with rfl | h2
        · exact absurd (hpairc x hx) (lt_irrefl _)
        · exact hnp x (List.mem_cons_of_mem c hx) h2
      · intro x hx d hd hdi
        rcases hcl x (List.mem_cons_of_mem c hx) d hd hdi with h | h
        · exact Or.inl (List.mem_cons_of_mem c h)
        · rcases List.mem_cons.mp h with rfl | h2
          · exact Or.inl (List.mem_cons_self d p)
          · exact Or.inr h2
      · intro x hx d hd hdi hdL
        exact hrk x (List.mem_cons_of_mem c hx) d hd hdi (List.mem_cons_of_mem c hdL)

/-- Concatenating rank-sorted blocks in a rank-increasing block order gives a
rank-sorted list. -/
theorem pairwise_rank_flatMap {α : Type} (r : α → Nat) (f : Nat → List α) :
    ∀ L : List Nat, List.Pairwise (· < ·) L →
      (∀ a ∈ L, List.Pairwise (fun x y => r x < r y) (f a)) →
      (∀ a ∈ L, ∀ b ∈ L, a < b → ∀ x ∈ f a, ∀ y ∈ f b, r x < r y) →
      List.Pairwise (fun x y => r x < r y) (L.flatMap f) := by
  intro L
  induction L with
  | nil => intro _ _ _; simp
  | cons a L ih =>
    intro hpair hblock hsep
    rw [List.flatMap_cons, List.pairwise_append]
    have hmem : ∀ y ∈ L.flatMap f, ∃ b ∈ L, y ∈ f b := by
      intro y hy; exact List.mem_flatMap.mp hy
    refine ⟨hblock a (List.mem_cons_self a L), ?_, ?_⟩
    · refine ih (List.pairwise_cons.mp hpair).2 ?_ ?_
      · intro b hb; exact hblock b (List.mem_cons_of_mem a hb)
      · intro b hb b2 hb2 hlt
        exact hsep b (List.mem_cons_of_mem a hb) b2 (List.mem_cons_of_mem a hb2) hlt
    · intro x hx y hy
      obtain ⟨b, hb, hyb⟩ := hmem y hy
      exact hsep a (List.mem_cons_self a L) b (List.mem_cons_of_mem a hb)
        ((List.pairwise_cons.mp hpair).1 b hb) x hx y hyb

/-- Row-major rank: the flat-vector index `i * (len2+1) + j` used by both
programs. -/
def rmRank (len2 : Nat) (c : Nat × Nat) : Nat := c.1 * (len2 + 1) + c.2

theorem mem_rowMajorOrder (len1 len2 : Nat) (c : Nat × Nat) :
    c ∈ rowMajorOrder len1 len2 ↔ interior len1 len2 c := by
  obtain ⟨a, b⟩ := c
  simp only [rowMajorOrder, List.mem_flatMap, List.mem_map, List.mem_range, interior,
    Prod.mk.injEq]
  constructor
  · rintro ⟨i, hi, j, hj, h1, h2⟩
    omega
  · rintro ⟨h1, h2, h3, h4⟩
    exact ⟨a - 1, by omega, b - 1, by omega, by omega, by omega⟩

theorem pairwise_rowMajorOrder (len1 len2 : Nat) :
    List.Pairwise (fun x y => rmRank len2 x < rmRank len2 y) (rowMajorOrder len1 len2) := by
  refine pairwise_rank_flatMap _ _ _ (List.pairwise_lt_range len1) ?_ ?_
  · intro i _
    rw [List.pairwise_map]
    refine List.Pairwise.imp ?_ (List.pairwise_lt_range len2)
    intro x y hxy
    simp only [rmRank]
    omega
  · intro i _ i2 _ hlt x hx y hy
    simp only [List.mem_map, List.mem_range] at hx hy
    obtain ⟨j, hj, rfl⟩ := hx
    obtain ⟨j2, hj2, rfl⟩ := hy
    simp only [rmRank]
    have h2 : (i+1+1) * (len2+1) ≤ (i2+1) * (len2+1) :=
      Nat.mul_le_mul_right _ (by omega)
    have h3 : (i+1+1) * (len2+1) = (i+1) * (len2+1) + (len2+1) := by ring
    omega

theorem rmRank_deps (len1 len2 : Nat) (c : Nat × Nat) (hc : interior len1 len2 c) :
    ∀ d ∈ deps c, interior len1 len2 d → rmRank len2 d < rmRank len2 c := by
  obtain ⟨a, b⟩ := c
  obtain ⟨h1, h2, h3, h4⟩ := hc
  intro d hd hdi
  simp only [deps, List.mem_cons, List.not_mem_nil] at hd
  rcases hd with rfl | rfl | rfl | h
  · simp only [rmRank]
    have := Nat.mul_le_mul_right (len2+1) (Nat.sub_le a 1)
    omega
  · obtain ⟨g1, g2, g3, g4⟩ := hdi
    simp only [rmRank] at *
    have h5 : (a-1+1) * (len2+1) ≤ a * (len2+1) := Nat.mul_le_mul_right _ (by omega)
    have h6 : (a-1+1) * (len2+1) = (a-1) * (len2+1) + (len2+1) := by ring
    omega
  · simp only [rmRank]
    omega
  · exact absurd h (by simp)

theorem schedOK_rowMajor (len1 len2 : Nat) :
    schedOK len1 len2 [] (rowMajorOrder len1 len2) := by
  refine schedOK_of_rank len1 len2 (rmRank len2) _ [] (pairwise_rowMajorOrder len1 len2)
    (fun _ _ h => by simp at h) ?_ ?_
  · intro c hc d hd hdi
    exact Or.inr ((mem_rowMajorOrder len1 len2 d).mpr hdi)
  · intro c hc d hd hdi _
    exact rmRank_deps len1 len2 c ((mem_rowMajorOrder len1 len2 c).mp hc) d hd hdi

theorem cpuMatrix_eq_spec (s1 s2 : List Char) (ms mm gs : Int) (a b : Nat) :
    cpuMatrix s1 s2 ms mm gs a b =
      if interior s1.length s2.length (a, b) then swSpec s1 s2 ms mm gs a b
      else (0, 0) := by
  have hfill := fill_go s1 s2 ms mm gs s1.length s2.length
    (rowMajorOrder s1.length s2.length) [] mat0 (by simp)
    (fun c hc => (mem_rowMajorOrder _ _ c).mp hc)
    (schedOK_rowMajor _ _) (fun a b => by simp [mat0]) a b
  have hiff : ((a, b) ∈ ([] : List (Nat × Nat)) ∨
      (a, b) ∈ rowMajorOrder s1.length s2.length) ↔
      interior s1.length s2.length (a, b) := by
    simp [mem_rowMajorOrder]
  unfold cpuMatrix
  rw [hfill, if_congr hiff rfl rfl]

/-- Anti-diagonal rank: diagonal index first, then `i` inside the diagonal. -/
def dgRank (len1 len2 : Nat) (c : Nat × Nat) : Nat :=
  (c.1 + c.2) * (len1 + len2 + 2) + c.1

theorem mem_diagCells (len1 len2 d : Nat) (c : Nat × Nat) :
    c ∈ diagCells len1 len2 d ↔ (interior len1 len2 c ∧ c.1 + c.2 = d) := by
  obtain ⟨a, b⟩ := c
  obtain ⟨E, hE⟩ : ∃ E, E = min (d - 1) len1 := ⟨_, rfl⟩
  have hm : E = d - 1 ∨ E = len1 := by
    rcases Nat.le_total (d - 1) len1 with h | h
    · exact Or.inl (hE.trans (Nat.min_eq_left h))
    · exact Or.inr (hE.trans (Nat.min_eq_right h))
  have hm2 : E ≤ d - 1 := hE ▸ Nat.min_le_left _ _
  have hm3 : E ≤ len1 := hE ▸ Nat.min_le_right _ _
  by_cases hgt : d > len2 + 1 <;>
    simp only [diagCells, hgt, if_true, if_false, reduceIte, ← hE] <;>
    split_ifs with hskip <;>
    simp only [List.not_mem_nil, List.mem_map, List.mem_range'_1, Prod.mk.injEq,
      interior, false_iff]
  · rintro ⟨⟨g1, g2, g3, g4⟩, g5⟩
    rcases hskip with h | h <;> omega
  · constructor
    · rintro ⟨i, ⟨hi1, hi2⟩, rfl, rfl⟩
      have hns : ¬(d - (len2 + 1) + 1 > len1) ∧ ¬(d - (len2 + 1) + 1 > E) := by
        constructor <;> intro h <;> exact hskip (by omega)
      refine ⟨⟨by omega, by omega, by omega, by omega⟩, by omega⟩
    · rintro ⟨⟨g1, g2, g3, g4⟩, g5⟩
      refine ⟨a, ⟨by omega, by omega⟩, rfl, by omega⟩
  · rintro ⟨⟨g1, g2, g3, g4⟩, g5⟩
    rcases hskip with h | h <;> omega
  · constructor
    · rintro ⟨i, ⟨hi1, hi2⟩, rfl, rfl⟩
      have hns : ¬(1 > len1) ∧ ¬(1 > E) := by
        constructor <;> intro h <;> exact hskip (by omega)
      refine ⟨⟨by omega, by omega, by omega, by omega⟩, by omega⟩
    · rintro ⟨⟨g1, g2, g3, g4⟩, g5⟩
      refine ⟨a, ⟨by omega, by omega⟩, rfl, by omega⟩

theorem mem_diagOrder (len1 len2 : Nat) (c : Nat × Nat) :
    c ∈ diagOrder len1 len2 ↔ interior len1 len2 c := by
  simp only [diagOrder, List.mem_flatMap, List.mem_range'_1, mem_diagCells]
  constructor
  · rintro ⟨d, _, hint, _⟩
    exact hint
  · intro hint
    obtain ⟨h1, h2, h3, h4⟩ := hint
    exact ⟨c.1 + c.2, by omega, ⟨h1, h2, h3, h4⟩, rfl⟩

theorem pairwise_diagCells (len1 len2 d : Nat) :
    List.Pairwise (fun x y => dgRank len1 len2 x < dgRank len1 len2 y)
      (diagCells len1 len2 d) := by
  obtain ⟨E, hE⟩ : ∃ E, E = min (d - 1) len1 := ⟨_, rfl⟩
  have hm2 : E ≤ d - 1 := hE ▸ Nat.min_le_left _ _
  by_cases hgt : d > len2 + 1 <;>
    simp only [diagCells, hgt, if_true, if_false, reduceIte, ← hE] <;>
    split_ifs with hskip
  · exact List.Pairwise.nil
  · rw [List.pairwise_map]
    refine List.Pairwise.imp_of_mem ?_ (List.pairwise_lt_range' _ _ _)
    intro x y hx hy hxy
    simp only [List.mem_range'_1] at hx hy
    simp only [dgRank]
    have hxd : x + (d - x) = d := by omega
    have hyd : y + (d - y) = d := by omega
    rw [hxd, hyd]
    omega
  · exact List.Pairwise.nil
  · rw [List.pairwise_map]
    refine List.Pairwise.imp_of_mem ?_ (List.pairwise_lt_range' _ _ _)
    intro x y hx hy hxy
    simp only [List.mem_range'_1] at hx hy
    simp only [dgRank]
    have hxd : x + (d - x) = d := by omega
    have hyd : y + (d - y) = d := by omega
    rw [hxd, hyd]
    omega

theorem pairwise_diagOrder (len1 len2 : Nat) :
    List.Pairwise (fun x y => dgRank len1 len2 x < dgRank len1 len2 y)
      (diagOrder len1 len2) := by
  refine pairwise_rank_flatMap _ _ _ (List.pairwise_lt_range' _ _ _) ?_ ?_
  · intro d _
    exact pairwise_diagCells len1 len2 d
  · intro d1 _ d2 _ hlt x hx y hy
    rw [mem_diagCells] at hx hy
    obtain ⟨⟨g1, g2, g3, g4⟩, hxsum⟩ := hx
    obtain ⟨_, hysum⟩ := hy
    simp only [dgRank]
    rw [hxsum, hysum]
    have h2 : (d1+1) * (len1+len2+2) ≤ d2 * (len1+len2+2) :=
      Nat.mul_le_mul_right _ (by omega)
    have h3 : (d1+1) * (len1+len2+2) = d1 * (len1+len2+2) + (len1+len2+2) := by ring
    omega

theorem dgRank_deps (len1 len2 : Nat) (c : Nat × Nat) (hc : interior len1 len2 c) :
    ∀ d ∈ deps c, interior len1 len2 d → dgRank len1 len2 d < dgRank len1 len2 c := by
  obtain ⟨a, b⟩ := c
  obtain ⟨h1, h2, h3, h4⟩ := hc
  intro x hx hxi
  obtain ⟨e, he⟩ : ∃ e, a + b = e + 2 := ⟨a + b - 2, by omega⟩
  simp only [deps, List.mem_cons, List.not_mem_nil] at hx
  have hK3 : (e+1) * (len1+len2+2) = e * (len1+len2+2) + (len1+len2+2) := by ring
  have hK4 : (e+2) * (len1+len2+2) = (e+1) * (len1+len2+2) + (len1+len2+2) := by ring
  rcases hx with rfl | rfl | rfl | hf
  · simp only [dgRank]
    have hsum : a - 1 + (b - 1) = e := by omega
    rw [hsum, he]
    omega
  · simp only [dgRank]
    have hsum : a - 1 + b = e + 1 := by omega
    rw [hsum, he]
    omega
  · simp only [dgRank]
    have hsum : a + (b - 1) = e + 1 := by omega
    rw [hsum, he]
    omega
  · exact absurd hf (by simp)

theorem schedOK_diag (len1 len2 : Nat) :
    schedOK len1 len2 [] (diagOrder len1 len2) := by
  refine schedOK_of_rank len1 len2 (dgRank len1 len2) _ [] (pairwise_diagOrder len1 len2)
    (fun _ _ h => by simp at h) ?_ ?_
  · intro c hc d hd hdi
    exact Or.inr ((mem_diagOrder len1 len2 d).mpr hdi)
  · intro c hc d hd hdi _
    exact dgRank_deps len1 len2 c ((mem_diagOrder len1 len2 c).mp hc) d hd hdi

theorem gpuMatrix_eq_spec (s1 s2 : List Char) (ms mm gs : Int) (a b : Nat) :
    gpuMatrix s1 s2 ms mm gs a b =
      if interior s1.length s2.length (a, b) then swSpec s1 s2 ms mm gs a b
      else (0, 0) := by
  have hfill := fill_go s1 s2 ms mm gs s1.length s2.length
    (diagOrder s1.length s2.length) [] mat0 (by simp)
    (fun c hc => (mem_diagOrder _ _ c).mp hc)
    (schedOK_diag _ _) (fun a b => by simp [mat0]) a b
  have hiff : ((a, b) ∈ ([] : List (Nat × Nat)) ∨
      (a, b) ∈ diagOrder s1.length s2.length) ↔
      interior s1.length s2.length (a, b) := by
    simp [mem_diagOrder]
  unfold gpuMatrix
  rw [hfill, if_congr hiff rfl rfl]

/-- The two fill schedules produce the same matrix, cell for cell. -/
theorem matrix_fill_equiv (s1 s2 : List Char) (ms mm gs : Int) (a b : Nat) :
    cpuMatrix s1 s2 ms mm gs a b = gpuMatrix s1 s2 ms mm gs a b := by
  rw [cpuMatrix_eq_spec, gpuMatrix_eq_spec]

/-- The two pipelines produce the same alignment result. -/
theorem pipelines_eq (s1 s2 : List Char) (ms mm gs : Int) :
    smithWaterman s1 s2 ms mm gs = smithWatermanDiag s1 s2 ms mm gs := by
  have hm : cpuMatrix s1 s2 ms mm gs = gpuMatrix s1 s2 ms mm gs :=
    funext fun a => funext fun b => matrix_fill_equiv s1 s2 ms mm gs a b
  unfold smithWaterman smithWatermanDiag
  rw [hm]

/-- On the rectangle the matrix actually covers, both boundary and interior
cells of the CPU fill agree with the recurrence. -/
theorem cpu_eq_spec_of_le (s1 s2 : List Char) (ms mm gs : Int) (a b : Nat)
    (ha : a ≤ s1.length) (hb : b ≤ s2.length) :
    cpuMatrix s1 s2 ms mm gs a b = swSpec s1 s2 ms mm gs a b := by
  rw [cpuMatrix_eq_spec]
  by_cases h : interior s1.length s2.length (a, b)
  · rw [if_pos h]
  · rw [if_neg h]
    have hz : a = 0 ∨ b = 0 := by
      simp only [interior] at h
      omega
    exact (swSpec_boundary s1 s2 ms mm gs a b hz).symm

/-- C1: for every pair of non-empty uppercase sequences and every scoring
triple, the sequential row-major fill and the anti-diagonal fill produce
identical score matrices and identical direction matrices, and the two
pipelines return identical alignment results (same aligned strings, same
best score). -/
theorem seq_antidiagonal_equivalence (s1 s2 : List Char) (ms mm gs : Int)
    (hne1 : s1 ≠ []) (hne2 : s2 ≠ [])
    (hu1 : ∀ c ∈ s1, c.isUpper) (hu2 : ∀ c ∈ s2, c.isUpper) :
    (∀ a b, (cpuMatrix s1 s2 ms mm gs a b).1 = (gpuMatrix s1 s2 ms mm gs a b).1) ∧
    (∀ a b, (cpuMatrix s1 s2 ms mm gs a b).2 = (gpuMatrix s1 s2 ms mm gs a b).2) ∧
    smithWaterman s1 s2 ms mm gs = smithWatermanDiag s1 s2 ms mm gs :=
  ⟨fun a b => by rw [matrix_fill_equiv],
   fun a b => by rw [matrix_fill_equiv],
   pipelines_eq s1 s2 ms mm gs⟩

/-- Witness for C1 at a concrete input. -/
theorem seq_antidiagonal_equivalence_witness :
    (∀ a b, (cpuMatrix ['A'] ['C'] 2 (-1) (-1) a b).1 =
      (gpuMatrix ['A'] ['C'] 2 (-1) (-1) a b).1) ∧
    (∀ a b, (cpuMatrix ['A'] ['C'] 2 (-1) (-1) a b).2 =
      (gpuMatrix ['A'] ['C'] 2 (-1) (-1) a b).2) ∧
    smithWaterman ['A'] ['C'] 2 (-1) (-1) = smithWatermanDiag ['A'] ['C'] 2 (-1) (-1) :=
  seq_antidiagonal_equivalence ['A'] ['C'] 2 (-1) (-1)
    (by decide) (by decide) (by decide) (by decide)

/-- C2: every interior cell holds `max(0, diag, up, left)` where
`diag = cell(i-1,j-1) + score(seq1[i-1], seq2[j-1])`, `up = cell(i-1,j) + gap`,
`left = cell(i,j-1) + gap`, and its direction is the first candidate in the
order DIAG, UP, LEFT whose value equals the best score, or NONE when the best
score is 0. -/
theorem dp_update_rule (s1 s2 : List Char) (ms mm gs : Int) (i j : Nat)
    (hi1 : 1 ≤ i) (hi2 : i ≤ s1.length) (hj1 : 1 ≤ j) (hj2 : j ≤ s2.length) :
    cpuMatrix s1 s2 ms mm gs i j =
      specUpdateRule
        ((cpuMatrix s1 s2 ms mm gs (i-1) (j-1)).1 +
          subScore ms mm (s1.getD (i-1) ' ') (s2.getD (j-1) ' '))
        ((cpuMatrix s1 s2 ms mm gs (i-1) j).1 + gs)
        ((cpuMatrix s1 s2 ms mm gs i (j-1)).1 + gs) := by
  obtain ⟨i0, rfl⟩ : ∃ i0, i = i0 + 1 := ⟨i - 1, by omega⟩
  obtain ⟨j0, rfl⟩ : ∃ j0, j = j0 + 1 := ⟨j - 1, by omega⟩
  simp only [Nat.add_sub_cancel]
  rw [cpu_eq_spec_of_le s1 s2 ms mm gs _ _ hi2 hj2,
      cpu_eq_spec_of_le s1 s2 ms mm gs _ _ (by omega) (by omega),
      cpu_eq_spec_of_le s1 s2 ms mm gs _ _ (by omega) (by omega),
      cpu_eq_spec_of_le s1 s2 ms mm gs _ _ (by omega) (by omega),
      swSpec_succ]
  unfold cellAt
  simp only [Nat.add_sub_cancel]
  rw [chooseCell_eq_specUpdateRule]

/-- Witness for C2 at a concrete input. -/
theorem dp_update_rule_witness :
    cpuMatrix ['A'] ['A'] 2 (-1) (-1) 1 1 =
      specUpdateRule
        ((cpuMatrix ['A'] ['A'] 2 (-1) (-1) 0 0).1 +
          subScore 2 (-1) (List.getD ['A'] 0 ' ') (List.getD ['A'] 0 ' '))
        ((cpuMatrix ['A'] ['A'] 2 (-1) (-1) 0 1).1 + (-1))
        ((cpuMatrix ['A'] ['A'] 2 (-1) (-1) 1 0).1 + (-1)) :=
  dp_update_rule ['A'] ['A'] 2 (-1) (-1) 1 1
    (by decide) (by decide) (by decide) (by decide)

theorem foldl_add_eq_sum (f : Nat → Nat) :
    ∀ n, (List.range n).foldl (fun acc i => acc + f i) 0 = ∑ i ∈ Finset.range n, f i := by
  intro n
  induction n with
  | zero => rfl
  | succ n ih =>
    rw [List.range_succ, List.foldl_append, Finset.sum_range_succ, ih]
    simp

/-- C3: the checksum of an aligned string `s` is
`(sum over i of ((i mod 57) + 1) * uppercase(s[i]))  mod 10000`, gap positions
included in both the index and the sum; the result lies in `[0, 9999]`
(it is a `Nat`, so only the upper bound is stated); and the pairwise checksum
of the report header is the mod-10000 sum of the two per-sequence checksums. -/
theorem gcg_checksum_spec (s n1 n2 a1 a2 : List Char) (sc : Int) :
    gcgChecksum s =
      (∑ i ∈ Finset.range s.length, ((i % 57) + 1) * upCode (s.getD i ' ').toNat) % 10000 ∧
    gcgChecksum s ≤ 9999 ∧
    (printMSFAlignment n1 n2 a1 a2 sc).globalCheck =
      (gcgChecksum a1 + gcgChecksum a2) % 10000 := by
  refine ⟨?_, ?_, rfl⟩
  · unfold gcgChecksum
    rw [foldl_add_eq_sum]
  · unfold gcgChecksum
    have h := Nat.mod_lt
      ((List.range s.length).foldl
        (fun acc i => acc + ((i % 57) + 1) * upCode (s.getD i ' ').toNat) 0)
      (show 0 < 10000 by decide)
    omega

/-- C4: on `seq1 = "ACACACTA"`, `seq2 = "AGCACACA"` with match 2, mismatch -1,
gap -1, the engine returns best score 12 and the aligned pair
`"A-CACACTA"` / `"AGCACAC-A"`, rendered with gaps as the MSF symbol
(so the returned strings are `"A.CACACTA"` and `"AGCACAC.A"`). -/
theorem scenario_a :
    smithWaterman "ACACACTA".toList "AGCACACA".toList 2 (-1) (-1) =
      ("A.CACACTA".toList, "AGCACAC.A".toList, 12) := by decide

/-- C10: on the empty alignment result (both aligned strings empty, score 0)
the serializer still produces a complete report: both per-sequence checksums
and the pairwise checksum are 0, the reported aligned length is 0, the type
letter is the nucleic-acid letter, and there are no residue-block lines. -/
theorem empty_alignment_report (name1 name2 : List Char) :
    printMSFAlignment name1 name2 [] [] 0 =
      { score := 0, alignLen := 0, typeChar := 'N', globalCheck := 0,
        check1 := 0, check2 := 0, bodyLines := [] } := rfl

/-! ### The best-cell scan -/

theorem findMax_go (m : Mat) (r : Nat × Nat → Nat) :
    ∀ (L p : List (Nat × Nat)) (acc : Int × Nat × Nat),
      List.Pairwise (fun a b => r a < r b) (p ++ L) →
      (0 ≤ acc.1 ∧
        (∀ c ∈ p, (m c.1 c.2).1 ≤ acc.1) ∧
        ((acc.1 = 0 ∧ acc.2 = (0, 0)) ∨
          (acc.2 ∈ p ∧ (m acc.2.1 acc.2.2).1 = acc.1 ∧ 0 < acc.1 ∧
            (∀ c ∈ p, (m c.1 c.2).1 = acc.1 → r acc.2 ≤ r c)))) →
      (0 ≤ (L.foldl (fun acc c =>
          if (m c.1 c.2).1 > acc.1 then ((m c.1 c.2).1, c.1, c.2) else acc) acc).1 ∧
        (∀ c ∈ p ++ L, (m c.1 c.2).1 ≤ (L.foldl (fun acc c =>
          if (m c.1 c.2).1 > acc.1 then ((m c.1 c.2).1, c.1, c.2) else acc) acc).1) ∧
        (((L.foldl (fun acc c =>
            if (m c.1 c.2).1 > acc.1 then ((m c.1 c.2).1, c.1, c.2) else acc) acc).1 = 0 ∧
          (L.foldl (fun acc c =>
            if (m c.1 c.2).1 > acc.1 then ((m c.1 c.2).1, c.1, c.2) else acc) acc).2 = (0, 0)) ∨
          ((L.foldl (fun acc c =>
            if (m c.1 c.2).1 > acc.1 then ((m c.1 c.2).1, c.1, c.2) else acc) acc).2 ∈ p ++ L ∧
           (m (L.foldl (fun acc c =>
            if (m c.1 c.2).1 > acc.1 then ((m c.1 c.2).1, c.1, c.2) else acc) acc).2.1
              (L.foldl (fun acc c =>
            if (m c.1 c.2).1 > acc.1 then ((m c.1 c.2).1, c.1, c.2) else acc) acc).2.2).1 =
             (L.foldl (fun acc c =>
            if (m c.1 c.2).1 > acc.1 then ((m c.1 c.2).1, c.1, c.2) else acc) acc).1 ∧
           0 < (L.foldl (fun acc c =>
            if (m c.1 c.2).1 > acc.1 then ((m c.1 c.2).1, c.1, c.2) else acc) acc).1 ∧
           (∀ c ∈ p ++ L, (m c.1 c.2).1 = (L.foldl (fun acc c =>
            if (m c.1 c.2).1 > acc.1 then ((m c.1 c.2).1, c.1, c.2) else acc) acc).1 →
             r (L.foldl (fun acc c =>
            if (m c.1 c.2).1 > acc.1 then ((m c.1 c.2).1, c.1, c.2) else acc) acc).2 ≤ r c)))) := by
  intro L
  induction L with
  | nil =>
    intro p acc _ hinv
    simpa using hinv
  | cons c L ih =>
    intro p acc hpair hinv
    obtain ⟨hnn, hub, hdisj⟩ := hinv
    have hplt : ∀ x ∈ p, r x < r c := by
      intro x hx
      have := (List.pairwise_append.mp hpair).2.2 x hx c (List.mem_cons_self c L)
      exact this
    have hpair2 : List.Pairwise (fun a b => r a < r b) ((p ++ [c]) ++ L) := by
      rw [List.append_assoc]
      simpa using hpair
    have hstep : (0 ≤ (if (m c.1 c.2).1 > acc.1 then ((m c.1 c.2).1, c.1, c.2) else acc).1 ∧
        (∀ x ∈ p ++ [c], (m x.1 x.2).1 ≤
          (if (m c.1 c.2).1 > acc.1 then ((m c.1 c.2).1, c.1, c.2) else acc).1) ∧
        (((if (m c.1 c.2).1 > acc.1 then ((m c.1 c.2).1, c.1, c.2) else acc).1 = 0 ∧
          (if (m c.1 c.2).1 > acc.1 then ((m c.1 c.2).1, c.1, c.2) else acc).2 = (0, 0)) ∨
          ((if (m c.1 c.2).1 > acc.1 then ((m c.1 c.2).1, c.1, c.2) else acc).2 ∈ p ++ [c] ∧
           (m (if (m c.1 c.2).1 > acc.1 then ((m c.1 c.2).1, c.1, c.2) else acc).2.1
              (if (m c.1 c.2).1 > acc.1 then ((m c.1 c.2).1, c.1, c.2) else acc).2.2).1 =
             (if (m c.1 c.2).1 > acc.1 then ((m c.1 c.2).1, c.1, c.2) else acc).1 ∧
           0 < (if (m c.1 c.2).1 > acc.1 then ((m c.1 c.2).1, c.1, c.2) else acc).1 ∧
           (∀ x ∈ p ++ [c], (m x.1 x.2).1 =
              (if (m c.1 c.2).1 > acc.1 then ((m c.1 c.2).1, c.1, c.2) else acc).1 →
             r (if (m c.1 c.2).1 > acc.1 then ((m c.1 c.2).1, c.1, c.2) else acc).2 ≤ r x)))) := by
      by_cases hgt : (m c.1 c.2).1 > acc.1
      · rw [if_pos hgt]
        refine ⟨by dsimp only; omega, ?_, Or.inr ⟨?_, ?_, ?_, ?_⟩⟩
        · intro x hx
          rcases List.mem_append.mp hx with hx | hx
          · have := hub x hx
            dsimp only
            omega
          · rw [List.mem_singleton.mp hx] <;> (dsimp only; omega)
        · dsimp only
          simp
        · dsimp only
        · dsimp only
          omega
        · intro x hx hvx
          rcases List.mem_append.mp hx with hx | hx
          · have := hub x hx
            dsimp only at hvx
            omega
          · rw [List.mem_singleton.mp hx] <;> (dsimp only; exact le_refl _)
      · rw [if_neg hgt]
        refine ⟨hnn, ?_, ?_⟩
        · intro x hx
          rcases List.mem_append.mp hx with hx | hx
          · exact hub x hx
          · rw [List.mem_singleton.mp hx]
            omega
        · rcases hdisj with h | ⟨hmem, hval, hpos, hties⟩
          · exact Or.inl h
          · refine Or.inr ⟨List.mem_append_left _ hmem, hval, hpos, ?_⟩
            intro x hx hvx
            rcases List.mem_append.mp hx with hx | hx
            · exact hties x hx hvx
            · rw [List.mem_singleton.mp hx]
              exact le_of_lt (hplt acc.2 hmem)
    have := ih (p ++ [c]) _ hpair2 hstep
    simp only [List.foldl_cons]
    rw [List.append_assoc] at this
    simpa using this

theorem findMax_spec (m : Mat) (len1 len2 : Nat) :
    0 ≤ (findMax m len1 len2).1 ∧
    (∀ c ∈ rowMajorOrder len1 len2, (m c.1 c.2).1 ≤ (findMax m len1 len2).1) ∧
    (((findMax m len1 len2).1 = 0 ∧ (findMax m len1 len2).2 = (0, 0)) ∨
      ((findMax m len1 len2).2 ∈ rowMajorOrder len1 len2 ∧
       (m (findMax m len1 len2).2.1 (findMax m len1 len2).2.2).1 = (findMax m len1 len2).1 ∧
       0 < (findMax m len1 len2).1 ∧
       (∀ c ∈ rowMajorOrder len1 len2, (m c.1 c.2).1 = (findMax m len1 len2).1 →
         rmRank len2 (findMax m len1 len2).2 ≤ rmRank len2 c))) := by
  have h := findMax_go m (rmRank len2) (rowMajorOrder len1 len2) [] (0, 0, 0)
    (by simpa using pairwise_rowMajorOrder len1 len2)
    ⟨le_refl 0, by simp, Or.inl ⟨rfl, rfl⟩⟩
  simpa [findMax] using h

theorem rmRank_le_lex (len2 : Nat) (x y : Nat × Nat) (hy : y.2 ≤ len2)
    (h : rmRank len2 x ≤ rmRank len2 y) :
    x.1 < y.1 ∨ (x.1 = y.1 ∧ x.2 ≤ y.2) := by
  rcases Nat.lt_trichotomy x.1 y.1 with hlt | heq | hgt
  · exact Or.inl hlt
  · refine Or.inr ⟨heq, ?_⟩
    simp only [rmRank, heq] at h
    omega
  · exfalso
    simp only [rmRank] at h
    have h2 : (y.1 + 1) * (len2 + 1) ≤ x.1 * (len2 + 1) :=
      Nat.mul_le_mul_right _ (by omega)
    have h3 : (y.1 + 1) * (len2 + 1) = y.1 * (len2 + 1) + (len2 + 1) := by ring
    omega

/-- C6: the best-cell scan returns an upper bound of all interior scores;
when the maximum is positive it is attained at the returned coordinate, and
that coordinate is the first attaining cell in row-major order (lowest `i`,
then lowest `j`); when every interior cell is 0 the pipeline returns the
empty alignment with score 0. -/
theorem best_cell_locator (s1 s2 : List Char) (ms mm gs : Int) :
    (∀ c, interior s1.length s2.length c →
      (cpuMatrix s1 s2 ms mm gs c.1 c.2).1 ≤
        (findMax (cpuMatrix s1 s2 ms mm gs) s1.length s2.length).1) ∧
    (0 < (findMax (cpuMatrix s1 s2 ms mm gs) s1.length s2.length).1 →
      interior s1.length s2.length
        (findMax (cpuMatrix s1 s2 ms mm gs) s1.length s2.length).2 ∧
      (cpuMatrix s1 s2 ms mm gs
        (findMax (cpuMatrix s1 s2 ms mm gs) s1.length s2.length).2.1
        (findMax (cpuMatrix s1 s2 ms mm gs) s1.length s2.length).2.2).1 =
        (findMax (cpuMatrix s1 s2 ms mm gs) s1.length s2.length).1 ∧
      (∀ c, interior s1.length s2.length c →
        (cpuMatrix s1 s2 ms mm gs c.1 c.2).1 =
          (findMax (cpuMatrix s1 s2 ms mm gs) s1.length s2.length).1 →
        ((findMax (cpuMatrix s1 s2 ms mm gs) s1.length s2.length).2.1 < c.1 ∨
         ((findMax (cpuMatrix s1 s2 ms mm gs) s1.length s2.length).2.1 = c.1 ∧
          (findMax (cpuMatrix s1 s2 ms mm gs) s1.length s2.length).2.2 ≤ c.2)))) ∧
    ((∀ c, interior s1.length s2.length c → (cpuMatrix s1 s2 ms mm gs c.1 c.2).1 = 0) →
      smithWaterman s1 s2 ms mm gs = ([], [], 0)) := by
  obtain ⟨hnn, hub, hdisj⟩ := findMax_spec (cpuMatrix s1 s2 ms mm gs) s1.length s2.length
  refine ⟨?_, ?_, ?_⟩
  · intro c hc
    exact hub c ((mem_rowMajorOrder _ _ c).mpr hc)
  · intro hpos
    rcases hdisj with ⟨h0, _⟩ | ⟨hmem, hval, _, hties⟩
    · exfalso
      omega
    · refine ⟨(mem_rowMajorOrder _ _ _).mp hmem, hval, ?_⟩
      intro c hc hval2
      have hr := hties c ((mem_rowMajorOrder _ _ c).mpr hc) hval2
      exact rmRank_le_lex s2.length _ c hc.2.2.2 hr
  · intro hzero
    have hR : (findMax (cpuMatrix s1 s2 ms mm gs) s1.length s2.length).1 = 0 ∧
        (findMax (cpuMatrix s1 s2 ms mm gs) s1.length s2.length).2 = (0, 0) := by
      rcases hdisj with h | ⟨hmem, hval, hpos, _⟩
      · exact h
      · exfalso
        have hz := hzero _ ((mem_rowMajorOrder _ _ _).mp hmem)
        omega
    have hfm : findMax (cpuMatrix s1 s2 ms mm gs) s1.length s2.length = (0, 0, 0) :=
      Prod.ext_iff.mpr ⟨hR.1, hR.2⟩
    simp only [smithWaterman, hfm]
    rfl

/-- Witness for C6 at concrete inputs: a positive-maximum case and an
all-zero case. -/
theorem best_cell_locator_witness :
    ((cpuMatrix ['A'] ['A'] 2 (-1) (-1) 1 1).1 ≤
      (findMax (cpuMatrix ['A'] ['A'] 2 (-1) (-1)) 1 1).1) ∧
    interior 1 1 (findMax (cpuMatrix ['A'] ['A'] 2 (-1) (-1)) 1 1).2 ∧
    smithWaterman ['A'] ['C'] 2 (-1) (-1) = ([], [], 0) := by
  refine ⟨?_, ?_, ?_⟩
  · exact (best_cell_locator ['A'] ['A'] 2 (-1) (-1)).1 (1, 1) (by decide)
  · exact ((best_cell_locator ['A'] ['A'] 2 (-1) (-1)).2.1 (by decide)).1
  · apply (best_cell_locator ['A'] ['C'] 2 (-1) (-1)).2.2
    intro c hc
    obtain ⟨a, b⟩ := c
    have h1 : a = 1 ∧ b = 1 := by
      obtain ⟨g1, g2, g3, g4⟩ := hc
      simp only [List.length_singleton] at g2 g4
      omega
    obtain ⟨rfl, rfl⟩ := h1
    decide

/-! ### Matrix sign facts and the traceback walk -/

theorem swSpec_nonneg (s1 s2 : List Char) (ms mm gs : Int) :
    ∀ i j, 0 ≤ (swSpec s1 s2 ms mm gs i j).1 := by
  intro i j
  match i, j with
  | 0, j => simp [swSpec_boundary s1 s2 ms mm gs 0 j (Or.inl rfl)]
  | i+1, 0 => simp [swSpec_boundary s1 s2 ms mm gs (i+1) 0 (Or.inr rfl)]
  | i+1, j+1 =>
    rw [swSpec_succ]
    unfold cellAt
    exact chooseCell_nonneg _ _ _

theorem cpuMatrix_nonneg (s1 s2 : List Char) (ms mm gs : Int) (a b : Nat) :
    0 ≤ (cpuMatrix s1 s2 ms mm gs a b).1 := by
  rw [cpuMatrix_eq_spec]
  by_cases h : interior s1.length s2.length (a, b)
  · rw [if_pos h]
    exact swSpec_nonneg s1 s2 ms mm gs a b
  · rw [if_neg h] <;> simp

theorem cpuMatrix_dir_pos (s1 s2 : List Char) (ms mm gs : Int) (a b : Nat)
    (h : (cpuMatrix s1 s2 ms mm gs a b).2 ≠ 0) :
    0 < (cpuMatrix s1 s2 ms mm gs a b).1 := by
  rw [cpuMatrix_eq_spec] at *
  by_cases hint : interior s1.length s2.length (a, b)
  · rw [if_pos hint] at *
    obtain ⟨h1, h2, h3, h4⟩ := hint
    obtain ⟨i0, rfl⟩ : ∃ i0, a = i0 + 1 := ⟨a - 1, by omega⟩
    obtain ⟨j0, rfl⟩ : ∃ j0, b = j0 + 1 := ⟨b - 1, by omega⟩
    rw [swSpec_succ] at *
    unfold cellAt at *
    exact chooseCell_pos_of_dir _ _ _ h
  · rw [if_neg hint] at h
    simp at h

theorem traceback_path_ne_nil (s1 s2 : List Char) (m : Mat) :
    ∀ fuel ti tj a1 a2, (tracebackAux s1 s2 m fuel ti tj a1 a2).2.2 ≠ [] := by
  intro fuel ti tj a1 a2
  cases fuel <;> simp only [tracebackAux] <;> (try split_ifs) <;> simp

theorem traceback_path_pos (s1 s2 : List Char) (m : Mat)
    (hm : ∀ a b, (m a b).2 ≠ 0 → 0 < (m a b).1) :
    ∀ fuel ti tj a1 a2,
      ∀ c ∈ ((tracebackAux s1 s2 m fuel ti tj a1 a2).2.2).dropLast,
        0 < (m c.1 c.2).1 := by
  intro fuel
  induction fuel with
  | zero => intro ti tj a1 a2 c hc; simp [tracebackAux] at hc
  | succ fuel ih =>
    intro ti tj a1 a2 c hc
    simp only [tracebackAux] at hc
    split_ifs at hc with hg h0 h1 hs1 h2 hs2 h3 hs3
    · simp at hc
    · simp at hc
    · simp only [List.dropLast_cons₂, List.dropLast_single, List.mem_cons,
        List.not_mem_nil, or_false] at hc
      rw [hc]
      exact hm ti tj (by rw [h1]; simp)
    · obtain ⟨ph, pt, hp⟩ :=
        List.exists_cons_of_ne_nil (traceback_path_ne_nil s1 s2 m fuel (ti-1) (tj-1)
          (a1 ++ [s1.getD (ti-1) ' ']) (a2 ++ [s2.getD (tj-1) ' ']))
      rw [hp, List.dropLast_cons₂, List.mem_cons] at hc
      rcases hc with rfl | hc
      · exact hm ti tj (by rw [h1]; simp)
      · exact ih (ti-1) (tj-1) _ _ c (by rw [hp]; exact hc)
    · simp only [List.dropLast_cons₂, List.dropLast_single, List.mem_cons,
        List.not_mem_nil, or_false] at hc
      rw [hc]
      exact hm ti tj (by rw [h2]; simp)
    · obtain ⟨ph, pt, hp⟩ :=
        List.exists_cons_of_ne_nil (traceback_path_ne_nil s1 s2 m fuel (ti-1) tj
          (a1 ++ [s1.getD (ti-1) ' ']) (a2 ++ ['-']))
      rw [hp, List.dropLast_cons₂, List.mem_cons] at hc
      rcases hc with rfl | hc
      · exact hm ti tj (by rw [h2]; simp)
      · exact ih (ti-1) tj _ _ c (by rw [hp]; exact hc)
    · simp only [List.dropLast_cons₂, List.dropLast_single, List.mem_cons,
        List.not_mem_nil, or_false] at hc
      rw [hc]
      exact hm ti tj (by rw [h3]; simp)
    · obtain ⟨ph, pt, hp⟩ :=
        List.exists_cons_of_ne_nil (traceback_path_ne_nil s1 s2 m fuel ti (tj-1)
          (a1 ++ ['-']) (a2 ++ [s2.getD (tj-1) ' ']))
      rw [hp, List.dropLast_cons₂, List.mem_cons] at hc
      rcases hc with rfl | hc
      · exact hm ti tj (by rw [h3]; simp)
      · exact ih ti (tj-1) _ _ c (by rw [hp]; exact hc)
    · simp at hc

/-- C7: after the fill phase every score in the matrix (boundary rows
included) is non-negative, and the traceback walk only stands on cells of
positive score except for the final cell at which it stops. -/
theorem matrix_nonneg_traceback (s1 s2 : List Char) (ms mm gs : Int) :
    (∀ a b, 0 ≤ (cpuMatrix s1 s2 ms mm gs a b).1) ∧
    (∀ c ∈ (swTracePath s1 s2 ms mm gs).dropLast,
      0 < (cpuMatrix s1 s2 ms mm gs c.1 c.2).1) := by
  refine ⟨cpuMatrix_nonneg s1 s2 ms mm gs, ?_⟩
  intro c hc
  simp only [swTracePath] at hc
  exact traceback_path_pos s1 s2 (cpuMatrix s1 s2 ms mm gs)
    (cpuMatrix_dir_pos s1 s2 ms mm gs) _ _ _ _ _ c hc

/-- Witness for C7 at a concrete input: a boundary cell is non-negative and
the first cell of the scenario-A walk is positive. -/
theorem matrix_nonneg_traceback_witness :
    0 ≤ (cpuMatrix "ACACACTA".toList "AGCACACA".toList 2 (-1) (-1) 0 0).1 ∧
    0 < (cpuMatrix "ACACACTA".toList "AGCACACA".toList 2 (-1) (-1) 8 8).1 :=
  ⟨(matrix_nonneg_traceback "ACACACTA".toList "AGCACACA".toList 2 (-1) (-1)).1 0 0,
   (matrix_nonneg_traceback "ACACACTA".toList "AGCACACA".toList 2 (-1) (-1)).2 (8, 8)
     (by decide)⟩

/-! ### Shape of the aligned strings -/

theorem isUpper_ne_marks (c : Char) (h : c.isUpper = true) : c ≠ '-' ∧ c ≠ '.' := by
  constructor <;> rintro rfl <;> exact absurd h (by decide)

theorem getD_safe (s : List Char) (h : ∀ c ∈ s, c.isUpper) (k : Nat) :
    s.getD k ' ' ≠ '-' ∧ s.getD k ' ' ≠ '.' := by
  by_cases hk : k < s.length
  · have hmem : s.getD k ' ' ∈ s := by
      rw [List.getD_eq_getElem s ' ' hk]
      exact List.getElem_mem hk
    exact isUpper_ne_marks _ (h _ hmem)
  · rw [List.getD_eq_default s ' ' (by omega)]
    exact ⟨by decide, by decide⟩

theorem traceback_forall2 (s1 s2 : List Char) (m : Mat)
    (h1 : ∀ c ∈ s1, c.isUpper) (h2 : ∀ c ∈ s2, c.isUpper) :
    ∀ fuel ti tj a1 a2,
      List.Forall₂ (fun a b => ¬((a = '-' ∨ a = '.') ∧ (b = '-' ∨ b = '.'))) a1 a2 →
      List.Forall₂ (fun a b => ¬((a = '-' ∨ a = '.') ∧ (b = '-' ∨ b = '.')))
        (tracebackAux s1 s2 m fuel ti tj a1 a2).1
        (tracebackAux s1 s2 m fuel ti tj a1 a2).2.1 := by
  intro fuel
  induction fuel with
  | zero => intro ti tj a1 a2 hacc; simpa [tracebackAux] using hacc
  | succ fuel ih =>
    intro ti tj a1 a2 hacc
    have hp1 : List.Forall₂ (fun a b => ¬((a = '-' ∨ a = '.') ∧ (b = '-' ∨ b = '.')))
        (a1 ++ [s1.getD (ti-1) ' ']) (a2 ++ [s2.getD (tj-1) ' ']) := by
      refine List.rel_append hacc (List.Forall₂.cons ?_ List.Forall₂.nil)
      intro hcontra
      rcases (getD_safe s1 h1 (ti-1)) with ⟨g1, g2⟩
      rcases hcontra.1 with h | h
      · exact g1 h
      · exact g2 h
    have hp2 : List.Forall₂ (fun a b => ¬((a = '-' ∨ a = '.') ∧ (b = '-' ∨ b = '.')))
        (a1 ++ [s1.getD (ti-1) ' ']) (a2 ++ ['-']) := by
      refine List.rel_append hacc (List.Forall₂.cons ?_ List.Forall₂.nil)
      intro hcontra
      rcases (getD_safe s1 h1 (ti-1)) with ⟨g1, g2⟩
      rcases hcontra.1 with h | h
      · exact g1 h
      · exact g2 h
    have hp3 : List.Forall₂ (fun a b => ¬((a = '-' ∨ a = '.') ∧ (b = '-' ∨ b = '.')))
        (a1 ++ ['-']) (a2 ++ [s2.getD (tj-1) ' ']) := by
      refine List.rel_append hacc (List.Forall₂.cons ?_ List.Forall₂.nil)
      intro hcontra
      rcases (getD_safe s2 h2 (tj-1)) with ⟨g1, g2⟩
      rcases hcontra.2 with h | h
      · exact g1 h
      · exact g2 h
    simp only [tracebackAux]
    split_ifs with hg h0 h1d hs1 h2d hs2 h3d hs3
    · exact hacc
    · exact hacc
    · exact hp1
    · exact ih (ti-1) (tj-1) _ _ hp1
    · exact hp2
    · exact ih (ti-1) tj _ _ hp2
    · exact hp3
    · exact ih ti (tj-1) _ _ hp3
    · exact hacc

theorem msfGap_dot (a : Char) (h : (if a = '-' then '.' else a) = '.') :
    a = '-' ∨ a = '.' := by
  by_cases h2 : a = '-'
  · exact Or.inl h2
  · rw [if_neg h2] at h
    exact Or.inr h

/-- C8: the two aligned strings produced by traceback have equal length and
no index carries the gap symbol in both strings at once (for both the CPU
and the anti-diagonal pipeline). -/
theorem alignment_no_double_gap (s1 s2 : List Char) (ms mm gs : Int)
    (h1 : ∀ c ∈ s1, c.isUpper) (h2 : ∀ c ∈ s2, c.isUpper) :
    ((smithWaterman s1 s2 ms mm gs).1.length =
      (smithWaterman s1 s2 ms mm gs).2.1.length ∧
     List.Forall₂ (fun a b => ¬(a = '.' ∧ b = '.'))
       (smithWaterman s1 s2 ms mm gs).1 (smithWaterman s1 s2 ms mm gs).2.1) ∧
    ((smithWatermanDiag s1 s2 ms mm gs).1.length =
      (smithWatermanDiag s1 s2 ms mm gs).2.1.length ∧
     List.Forall₂ (fun a b => ¬(a = '.' ∧ b = '.'))
       (smithWatermanDiag s1 s2 ms mm gs).1 (smithWatermanDiag s1 s2 ms mm gs).2.1) := by
  have hraw := traceback_forall2 s1 s2 (cpuMatrix s1 s2 ms mm gs) h1 h2
    ((findMax (cpuMatrix s1 s2 ms mm gs) s1.length s2.length).2.1 +
     (findMax (cpuMatrix s1 s2 ms mm gs) s1.length s2.length).2.2)
    (findMax (cpuMatrix s1 s2 ms mm gs) s1.length s2.length).2.1
    (findMax (cpuMatrix s1 s2 ms mm gs) s1.length s2.length).2.2 [] [] List.Forall₂.nil
  have hrev := List.forall₂_reverse_iff.mpr hraw
  have hmain : List.Forall₂ (fun a b => ¬(a = '.' ∧ b = '.'))
      (smithWaterman s1 s2 ms mm gs).1 (smithWaterman s1 s2 ms mm gs).2.1 := by
    show List.Forall₂ (fun a b => ¬(a = '.' ∧ b = '.'))
      (msfGaps ((tracebackAux s1 s2 (cpuMatrix s1 s2 ms mm gs)
        ((findMax (cpuMatrix s1 s2 ms mm gs) s1.length s2.length).2.1 +
         (findMax (cpuMatrix s1 s2 ms mm gs) s1.length s2.length).2.2)
        (findMax (cpuMatrix s1 s2 ms mm gs) s1.length s2.length).2.1
        (findMax (cpuMatrix s1 s2 ms mm gs) s1.length s2.length).2.2 [] []).1.reverse))
      (msfGaps ((tracebackAux s1 s2 (cpuMatrix s1 s2 ms mm gs)
        ((findMax (cpuMatrix s1 s2 ms mm gs) s1.length s2.length).2.1 +
         (findMax (cpuMatrix s1 s2 ms mm gs) s1.length s2.length).2.2)
        (findMax (cpuMatrix s1 s2 ms mm gs) s1.length s2.length).2.1
        (findMax (cpuMatrix s1 s2 ms mm gs) s1.length s2.length).2.2 [] []).2.1.reverse))
    unfold msfGaps
    rw [List.forall₂_map_left_iff, List.forall₂_map_right_iff]
    refine hrev.imp ?_
    intro a b hab hcontra
    exact hab ⟨msfGap_dot a hcontra.1, msfGap_dot b hcontra.2⟩
  have hdiag : smithWatermanDiag s1 s2 ms mm gs = smithWaterman s1 s2 ms mm gs :=
    (pipelines_eq s1 s2 ms mm gs).symm
  rw [hdiag]
  exact ⟨⟨hmain.length_eq, hmain⟩, ⟨hmain.length_eq, hmain⟩⟩

/-- Witness for C8 at a concrete input. -/
theorem alignment_no_double_gap_witness :
    (((smithWaterman "ACACACTA".toList "AGCACACA".toList 2 (-1) (-1)).1.length =
        (smithWaterman "ACACACTA".toList "AGCACACA".toList 2 (-1) (-1)).2.1.length ∧
      List.Forall₂ (fun a b => ¬(a = '.' ∧ b = '.'))
        (smithWaterman "ACACACTA".toList "AGCACACA".toList 2 (-1) (-1)).1
        (smithWaterman "ACACACTA".toList "AGCACACA".toList 2 (-1) (-1)).2.1) ∧
     ((smithWatermanDiag "ACACACTA".toList "AGCACACA".toList 2 (-1) (-1)).1.length =
        (smithWatermanDiag "ACACACTA".toList "AGCACACA".toList 2 (-1) (-1)).2.1.length ∧
      List.Forall₂ (fun a b => ¬(a = '.' ∧ b = '.'))
        (smithWatermanDiag "ACACACTA".toList "AGCACACA".toList 2 (-1) (-1)).1
        (smithWatermanDiag "ACACACTA".toList "AGCACACA".toList 2 (-1) (-1)).2.1)) :=
  alignment_no_double_gap "ACACACTA".toList "AGCACACA".toList 2 (-1) (-1)
    (by decide) (by decide)

/-! ### The name field of the residue lines -/

/-- The claim as worded: the name field of a residue line consists of padding
characters followed by the name (left-padding).  Written from the words of
the claim, for comparison with `padName`, which is translated from the
source. -/
def claimLeftPadded (name line : List Char) : Prop :=
  ∃ rest, line = List.replicate (12 - name.length) ' ' ++ name ++ rest

/-- Counterexample for C9: with names of fewer than 12 characters, the
residue lines do not start with padding; `printf` with `%-12s` left-justifies,
so the padding spaces follow the name. -/
theorem msf_name_padding_cex :
    ¬ (∀ line ∈ msfBody ['S', '1'] ['S', '2'] ['A'] ['C'],
        claimLeftPadded ['S', '1'] line ∨ claimLeftPadded ['S', '2'] line) := by
  intro hall
  have hline : (padName ['S', '1'] ++ segLine ['A'] 0 1) ∈
      msfBody ['S', '1'] ['S', '2'] ['A'] ['C'] := by decide
  have hL : padName ['S', '1'] ++ segLine ['A'] 0 1 =
      ['S', '1', ' ', ' ', ' ', ' ', ' ', ' ', ' ', ' ', ' ', ' ', 'A'] := by decide
  rcases hall _ hline with ⟨rest, h⟩ | ⟨rest, h⟩
  · rw [hL, show (12 - List.length ['S', '1']) = 10 by decide] at h
    rw [show (List.replicate 10 ' ' : List Char) = ' ' :: List.replicate 9 ' ' from rfl,
      List.cons_append, List.cons_append] at h
    injection h with h1 _
    exact absurd h1 (by decide)
  · rw [hL, show (12 - List.length ['S', '2']) = 10 by decide] at h
    rw [show (List.replicate 10 ' ' : List Char) = ' ' :: List.replicate 9 ' ' from rfl,
      List.cons_append, List.cons_append] at h
    injection h with h1 _
    exact absurd h1 (by decide)

/-- C9 amended: in every residue line the name field is left-justified to a
fixed width of 12 characters: the name comes first and the padding spaces
follow it (names of 12 or more characters are emitted unpadded). -/
theorem msf_name_padding (name1 name2 a1 a2 line : List Char)
    (hline : line ∈ msfBody name1 name2 a1 a2) :
    (∃ rest, line = (name1 ++ List.replicate (12 - name1.length) ' ') ++ rest ∨
             line = (name2 ++ List.replicate (12 - name2.length) ' ') ++ rest) ∧
    (name1.length ≤ 12 → (name1 ++ List.replicate (12 - name1.length) ' ').length = 12) ∧
    (name2.length ≤ 12 → (name2 ++ List.replicate (12 - name2.length) ' ').length = 12) := by
  refine ⟨?_, ?_, ?_⟩
  · simp only [msfBody, List.mem_flatMap, List.mem_range] at hline
    obtain ⟨b, hb, hmem⟩ := hline
    simp only [List.mem_cons, List.not_mem_nil, or_false] at hmem
    rcases hmem with h | h
    · exact ⟨_, Or.inl (by rw [h]; rfl)⟩
    · exact ⟨_, Or.inr (by rw [h]; rfl)⟩
  · intro h
    simp only [List.length_append, List.length_replicate]
    omega
  · intro h
    simp only [List.length_append, List.length_replicate]
    omega

/-- Witness for the amended C9 at a concrete input. -/
theorem msf_name_padding_witness :
    (∃ rest, padName ['S'] ++ segLine ['A'] 0 1 =
        (['S'] ++ List.replicate (12 - List.length ['S']) ' ') ++ rest ∨
      padName ['S'] ++ segLine ['A'] 0 1 =
        (['T'] ++ List.replicate (12 - List.length ['T']) ' ') ++ rest) ∧
    (List.length ['S'] ≤ 12 →
      (['S'] ++ List.replicate (12 - List.length ['S']) ' ').length = 12) ∧
    (List.length ['T'] ≤ 12 →
      (['T'] ++ List.replicate (12 - List.length ['T']) ' ').length = 12) :=
  msf_name_padding ['S'] ['T'] ['A'] ['C'] (padName ['S'] ++ segLine ['A'] 0 1)
    (by decide)

/-! ### Self-alignment under the default scoring triple -/

theorem spec_le_two_min (s1 s2 : List Char) :
    ∀ N i j, i + j ≤ N → (swSpec s1 s2 2 (-1) (-1) i j).1 ≤ 2 * (min i j : Int) := by
  intro N
  induction N with
  | zero =>
    intro i j hij
    have hi : i = 0 := by omega
    subst hi
    simp [swSpec_boundary s1 s2 2 (-1) (-1) 0 j (Or.inl rfl)]
  | succ N ih =>
    intro i j hij
    match i, j with
    | 0, j => simp [swSpec_boundary s1 s2 2 (-1) (-1) 0 j (Or.inl rfl)]
    | i+1, 0 =>
      rw [swSpec_boundary s1 s2 2 (-1) (-1) (i+1) 0 (Or.inr rfl)]
      dsimp only
      omega
    | i+1, j+1 =>
      rw [swSpec_succ]
      unfold cellAt
      simp only [Nat.add_sub_cancel]
      have hd := ih i j (by omega)
      have hu := ih i (j+1) (by omega)
      have hl := ih (i+1) j (by omega)
      have hsub : subScore 2 (-1) (s1.getD i ' ') (s2.getD j ' ') ≤ 2 := by
        unfold subScore
        split_ifs <;> omega
      apply chooseCell_le
      · omega
      · omega
      · omega
      · omega

theorem spec_diag (s : List Char) (i : Nat) :
    swSpec s s 2 (-1) (-1) i i = (2 * (i : Int), if i = 0 then 0 else 1) := by
  induction i with
  | zero => simp [swSpec_boundary s s 2 (-1) (-1) 0 0 (Or.inl rfl)]
  | succ i ih =>
    rw [swSpec_succ]
    unfold cellAt
    simp only [Nat.add_sub_cancel]
    rw [ih]
    have hsub : subScore 2 (-1) (s.getD i ' ') (s.getD i ' ') = 2 := by
      unfold subScore
      rw [if_pos rfl]
    rw [hsub]
    have hu := spec_le_two_min s s (i + (i+1)) i (i+1) (le_refl _)
    have hl := spec_le_two_min s s ((i+1) + i) (i+1) i (le_refl _)
    rw [chooseCell_diag _ _ _ (by dsimp only; omega) (by dsimp only; omega)
      (by dsimp only; omega)]
    simp only [Nat.succ_ne_zero, if_false, Prod.mk.injEq]
    constructor
    · dsimp only
      push_cast
      ring
    · trivial

theorem cpu_self_diag (s : List Char) (i : Nat) (h1 : 1 ≤ i) (h2 : i ≤ s.length) :
    cpuMatrix s s 2 (-1) (-1) i i = (2 * (i : Int), 1) := by
  rw [cpu_eq_spec_of_le s s 2 (-1) (-1) i i h2 h2, spec_diag, if_neg (by omega)]

theorem cpu_le_two_min (s : List Char) (a b : Nat) (ha : a ≤ s.length)
    (hb : b ≤ s.length) :
    (cpuMatrix s s 2 (-1) (-1) a b).1 ≤ 2 * (min a b : Int) := by
  rw [cpu_eq_spec_of_le s s 2 (-1) (-1) a b ha hb]
  exact spec_le_two_min s s (a + b) a b (le_refl _)

theorem self_findMax (s : List Char) (hn : 1 ≤ s.length) :
    findMax (cpuMatrix s s 2 (-1) (-1)) s.length s.length =
      (2 * (s.length : Int), s.length, s.length) := by
  obtain ⟨hnn, hub, hdisj⟩ := findMax_spec (cpuMatrix s s 2 (-1) (-1)) s.length s.length
  have hval : (cpuMatrix s s 2 (-1) (-1) s.length s.length).1 = 2 * (s.length : Int) := by
    rw [cpu_self_diag s s.length hn (le_refl _)]
  have hmem : ((s.length, s.length) : Nat × Nat) ∈ rowMajorOrder s.length s.length :=
    (mem_rowMajorOrder _ _ _).mpr ⟨hn, le_refl _, hn, le_refl _⟩
  have hub2 := hub (s.length, s.length) hmem
  rw [hval] at hub2
  rcases hdisj with ⟨h0, _⟩ | ⟨hmemR, hvalR, hposR, _⟩
  · exfalso
    rw [h0] at hub2
    omega
  · have hint := (mem_rowMajorOrder _ _ _).mp hmemR
    obtain ⟨g1, g2, g3, g4⟩ := hint
    have hle := cpu_le_two_min s _ _ g2 g4
    rw [hvalR] at hle
    have hR1 : (findMax (cpuMatrix s s 2 (-1) (-1)) s.length s.length).1 =
        2 * (s.length : Int) := by
      have hmin : min (findMax (cpuMatrix s s 2 (-1) (-1)) s.length s.length).2.1
          (findMax (cpuMatrix s s 2 (-1) (-1)) s.length s.length).2.2 ≤ s.length := by
        omega
      omega
    have hcoord : (findMax (cpuMatrix s s 2 (-1) (-1)) s.length s.length).2.1 = s.length ∧
        (findMax (cpuMatrix s s 2 (-1) (-1)) s.length s.length).2.2 = s.length := by
      rw [hR1] at hle
      constructor <;> omega
    rw [Prod.ext_iff, Prod.ext_iff]
    exact ⟨hR1, hcoord.1, hcoord.2⟩

theorem self_traceback (s : List Char) :
    ∀ fuel i a1 a2, 1 ≤ i → i ≤ s.length → i ≤ fuel →
      (tracebackAux s s (cpuMatrix s s 2 (-1) (-1)) fuel i i a1 a2).1 =
        a1 ++ (s.take i).reverse ∧
      (tracebackAux s s (cpuMatrix s s 2 (-1) (-1)) fuel i i a1 a2).2.1 =
        a2 ++ (s.take i).reverse := by
  intro fuel
  induction fuel with
  | zero =>
    intro i a1 a2 h1 h2 h3
    omega
  | succ fuel ih =>
    intro i a1 a2 h1 h2 h3
    have hdir : (cpuMatrix s s 2 (-1) (-1) i i).2 = 1 := by
      rw [cpu_self_diag s i h1 h2]
    have htake : s.take i = s.take (i-1) ++ [s.getD (i-1) ' '] := by
      conv_lhs => rw [show i = (i-1) + 1 by omega]
      rw [List.take_succ, List.getElem?_eq_getElem (by omega),
        List.getD_eq_getElem s ' ' (by omega)]
      rfl
    simp only [tracebackAux, hdir]
    rw [if_neg (by omega)]
    simp only [reduceIte]
    by_cases hone : i = 1
    · subst hone
      have hz : (cpuMatrix s s 2 (-1) (-1) 0 0).1 = 0 := by
        rw [cpu_eq_spec_of_le s s 2 (-1) (-1) 0 0 (by omega) (by omega),
          swSpec_boundary s s 2 (-1) (-1) 0 0 (Or.inl rfl)]
      rw [if_pos hz]
      constructor <;> (dsimp only; rw [htake]; simp)
    · have hz : ¬ (cpuMatrix s s 2 (-1) (-1) (i-1) (i-1)).1 = 0 := by
        rw [cpu_self_diag s (i-1) (by omega) (by omega)]
        dsimp only
        intro h
        have : (i : Int) - 1 = 0 := by omega
        omega
      rw [if_neg hz]
      obtain ⟨ihl, ihr⟩ := ih (i-1) (a1 ++ [s.getD (i-1) ' ']) (a2 ++ [s.getD (i-1) ' '])
        (by omega) (by omega) (by omega)
      constructor
      · dsimp only
        rw [ihl, htake, List.reverse_append, List.reverse_singleton, List.append_assoc]
        rfl
      · dsimp only
        rw [ihr, htake, List.reverse_append, List.reverse_singleton, List.append_assoc]
        rfl

/-- C5: aligning a 20-residue uppercase sequence with itself under match 2,
mismatch -1, gap -1 yields best score 40, gap-free aligned strings each equal
to the input, and equal checksums for the two aligned strings. -/
theorem self_alignment (s : List Char) (hlen : s.length = 20)
    (hup : ∀ c ∈ s, c.isUpper) :
    smithWaterman s s 2 (-1) (-1) = (s, s, 40) ∧
    '.' ∉ (smithWaterman s s 2 (-1) (-1)).1 ∧
    '.' ∉ (smithWaterman s s 2 (-1) (-1)).2.1 ∧
    gcgChecksum (smithWaterman s s 2 (-1) (-1)).1 =
      gcgChecksum (smithWaterman s s 2 (-1) (-1)).2.1 := by
  have hn : 1 ≤ s.length := by omega
  have hfm := self_findMax s hn
  have hgaps : msfGaps s = s := by
    unfold msfGaps
    have hcong : ∀ c ∈ s, (if c = '-' then '.' else c) = c := fun c hc =>
      if_neg ((isUpper_ne_marks c (hup c hc)).1)
    rw [List.map_congr_left hcong]
    exact List.map_id s
  have hmain : smithWaterman s s 2 (-1) (-1) = (s, s, 40) := by
    obtain ⟨htb1, htb2⟩ := self_traceback s (s.length + s.length) s.length [] []
      hn (le_refl _) (by omega)
    simp only [smithWaterman, hfm]
    rw [htb1, htb2]
    simp only [List.nil_append, List.reverse_reverse, List.take_length]
    rw [hgaps, hlen]
    norm_num
  refine ⟨hmain, ?_, ?_, ?_⟩
  · rw [hmain]
    intro hm
    exact (isUpper_ne_marks '.' (hup '.' hm)).2 rfl
  · rw [hmain]
    intro hm
    exact (isUpper_ne_marks '.' (hup '.' hm)).2 rfl
  · rw [hmain]

/-- Witness for C5 at a concrete input. -/
theorem self_alignment_witness :
    smithWaterman (List.replicate 20 'A') (List.replicate 20 'A') 2 (-1) (-1) =
      (List.replicate 20 'A', List.replicate 20 'A', 40) ∧
    '.' ∉ (smithWaterman (List.replicate 20 'A') (List.replicate 20 'A') 2 (-1) (-1)).1 ∧
    '.' ∉ (smithWaterman (List.replicate 20 'A') (List.replicate 20 'A') 2 (-1) (-1)).2.1 ∧
    gcgChecksum (smithWaterman (List.replicate 20 'A') (List.replicate 20 'A') 2 (-1) (-1)).1 =
      gcgChecksum (smithWaterman (List.replicate 20 'A') (List.replicate 20 'A') 2 (-1) (-1)).2.1 :=
  self_alignment (List.replicate 20 'A') (by decide) (by decide)

end SW
